import Mathlib

/-!
Shallow embedding of the CI pipeline-trimming pass in `ci/test/mkpipeline.py`
(`PipelineStep`, `trim_pipeline`, `find_compose_images`), together with proofs
about the step-graph builder, change detector, dependency-closure engine and
trimmer.

External collaborators are abstracted as data:

* the mzbuild dependency resolver's output (`repo.resolve_dependencies`) is a
  finite association list `images : List (String × ResolvedImage)`, where a
  `ResolvedImage` carries its name and the transitive input file set that
  `image.inputs(transitive=True)` would return;
* the filesystem holding mzcompose documents is a function
  `cf : String → Option ComposeDoc` (`none` models an unreadable file, which is
  a fatal I/O error in the source);
* the pair (base-reference snapshot, working-tree snapshot) consulted by
  `git diff --no-patch --quiet origin/master... -- *inputs` is a function
  `pathChanged : String → Bool` giving, for each pathspec, whether some file
  matching it differs between the two snapshots; the diff of a pathspec list
  is changed iff some pathspec in it is changed.

Python `set`s are modelled as `List`s whose order and duplication are never
relied upon (all properties are stated via membership); `OrderedDict`
insertion (`steps[step.id] = step`, which replaces in place on key collision)
is modelled by `odInsert`.  The unbounded recursion of `trim_pipeline.visit`
is modelled with an explicit fuel argument; `visit_fuel_never_exhausted`
(claim C8) proves the fuel chosen by `compute_needed` can never run out, so
the model never exercises the `outOfFuel` escape hatch.
-/

/-- A scalar-or-list YAML value, as far as `depends_on` handling needs:
`isinstance(d, str)`, `isinstance(d, list)`, anything else (modelled by a
number, the spec's own example of a malformed value). -/
inductive YamlValue where
  | str (s : String)
  | num (n : Int)
  | list (xs : List YamlValue)

/-- `mzbuild.ResolvedImage`, as consumed by `mkpipeline.py`: a name and the
transitive input file set returned by `image.inputs(transitive=True)`. -/
structure ResolvedImage where
  name : String
  transitiveInputs : List String
deriving DecidableEq

/-- One entry of `compose["services"]`: the only field `find_compose_images`
reads is the optional `mzbuild` key. -/
structure ServiceConfig where
  mzbuild : Option String

/-- An mzcompose document: its `services` mapping (name → service config). -/
structure ComposeDoc where
  services : List (String × ServiceConfig)

/-- One record of the pipeline's `steps` list.  `Option` models key presence
(`"inputs" in config` etc.); `extra` stands for all further keys of the
record, which `trim_pipeline` never touches. -/
structure StepConfig where
  id : String
  inputs : Option (List String)
  depends_on : Option YamlValue
  plugins : Option (List (String × String))
  extra : List (String × YamlValue)

/-- `class PipelineStep` of `mkpipeline.py`.  `step_dependencies` holds the
raw elements `depends_on` contributed; the source's `Set[str]` annotation
notwithstanding, `step.step_dependencies.update(d)` copies whatever elements
a `depends_on` list holds, so the element type is `YamlValue`. -/
structure PipelineStep where
  id : String
  manual_inputs : List String
  image_dependencies : List ResolvedImage
  step_dependencies : List YamlValue

/-- Union of the transitive input sets of a list of images
(`for image in self.image_dependencies: inputs.update(image.inputs(transitive=True))`). -/
def image_inputs : List ResolvedImage → List String
  | [] => []
  | img :: rest => img.transitiveInputs ++ image_inputs rest

/-- `PipelineStep.inputs`: manual inputs plus every image dependency's
transitive inputs. -/
def PipelineStep.inputs (s : PipelineStep) : List String :=
  s.manual_inputs ++ image_inputs s.image_dependencies

/-- The fatal errors the builder can raise: `ValueError` for a malformed
`depends_on` (carrying the offending value), `KeyError` from `images[...]`,
and the I/O error from an unreadable mzcompose file. -/
inductive BuildError where
  | badDependsOn (d : YamlValue)
  | missingImage (name : String)
  | missingComposeFile (path : String)

/-- Dictionary lookup `images[name]` on the resolver output. -/
def lookupImage (images : List (String × ResolvedImage)) (name : String) :
    Option ResolvedImage :=
  (images.find? (fun p => p.fst = name)).map Prod.snd

/-- `inp.startswith("#")`: the first character is the reserved marker. -/
def starts_with_marker (inp : String) : Bool :=
  match inp.data with
  | [] => false
  | c :: _ => c = '#'

/-- `inp[1:]`: the string without its first character. -/
def drop_marker (inp : String) : String :=
  String.mk (inp.data.drop 1)

/-- The `inputs` loop of `trim_pipeline`: entries starting with `#` name an
mzbuild image (looked up by the rest of the string), others are literal
globs.  Returns (manual_inputs, image_dependencies). -/
def process_inputs (images : List (String × ResolvedImage)) :
    List String → Except BuildError (List String × List ResolvedImage)
  | [] => .ok ([], [])
  | inp :: rest =>
    if starts_with_marker inp then
      match lookupImage images (drop_marker inp) with
      | none => .error (.missingImage (drop_marker inp))
      | some img =>
        match process_inputs images rest with
        | .error e => .error e
        | .ok (manual, imgs) => .ok (manual, img :: imgs)
    else
      match process_inputs images rest with
      | .error e => .error e
      | .ok (manual, imgs) => .ok (inp :: manual, imgs)

/-- The `depends_on` branch of `trim_pipeline`: a string is accepted as a
singleton, a list is accepted element-wise (whatever its elements), anything
else raises `ValueError(f"unexpected non-str non-list for depends_on: {d}")`. -/
def parse_depends_on : YamlValue → Except BuildError (List YamlValue)
  | .str s => .ok [.str s]
  | .list xs => .ok xs
  | d => .error (.badDependsOn d)

/-- The loop body of `find_compose_images` over `compose["services"].values()`:
every service with an `mzbuild` key contributes `images[config["mzbuild"]]`. -/
def find_service_images (images : List (String × ResolvedImage)) :
    List ServiceConfig → Except BuildError (List ResolvedImage)
  | [] => .ok []
  | svc :: rest =>
    match svc.mzbuild with
    | none => find_service_images images rest
    | some name =>
      match lookupImage images name with
      | none => .error (.missingImage name)
      | some img =>
        match find_service_images images rest with
        | .error e => .error e
        | .ok out => .ok (img :: out)

/-- `find_compose_images`: read the mzcompose document at `path` and collect
the images its services name. -/
def find_compose_images (images : List (String × ResolvedImage))
    (cf : String → Option ComposeDoc) (path : String) :
    Except BuildError (List ResolvedImage) :=
  match cf path with
  | none => .error (.missingComposeFile path)
  | some compose => find_service_images images (compose.services.map Prod.snd)

/-- The `plugins` loop of `trim_pipeline`: every plugin entry whose name is
`./ci/plugins/mzcompose` contributes the images of its referenced mzcompose
configuration.  Each plugin mapping item is modelled as the pair
(plugin name, its `config` path). -/
def process_plugins (images : List (String × ResolvedImage))
    (cf : String → Option ComposeDoc) :
    List (String × String) → Except BuildError (List ResolvedImage)
  | [] => .ok []
  | (name, pcfg) :: rest =>
    if name = "./ci/plugins/mzcompose" then
      match find_compose_images images cf pcfg with
      | .error e => .error e
      | .ok imgs =>
        match process_plugins images cf rest with
        | .error e => .error e
        | .ok out => .ok (imgs ++ out)
    else process_plugins images cf rest

/-- Building one `PipelineStep` from one step configuration record
(lines 72–93 of `mkpipeline.py`), in source order: `inputs`, then
`depends_on`, then `plugins`. -/
def build_step (images : List (String × ResolvedImage))
    (cf : String → Option ComposeDoc) (config : StepConfig) :
    Except BuildError PipelineStep :=
  match (match config.inputs with
         | none => Except.ok ([], [])
         | some inps => process_inputs images inps) with
  | .error e => .error e
  | .ok (manual, imgdeps) =>
    match (match config.depends_on with
           | none => Except.ok []
           | some d => parse_depends_on d) with
    | .error e => .error e
    | .ok deps =>
      match (match config.plugins with
             | none => Except.ok []
             | some ps => process_plugins images cf ps) with
      | .error e => .error e
      | .ok plimgs =>
        .ok { id := config.id, manual_inputs := manual,
              image_dependencies := imgdeps ++ plimgs,
              step_dependencies := deps }

/-- `steps[step.id] = step` on an `OrderedDict` kept as a list: a colliding
key replaces the value at its original position, a fresh key appends. -/
def odInsert (steps : List PipelineStep) (s : PipelineStep) : List PipelineStep :=
  if steps.any (fun t => t.id = s.id) then
    steps.map (fun t => if t.id = s.id then s else t)
  else steps ++ [s]

/-- The builder loop over `pipeline["steps"]`, threading the `OrderedDict`. -/
def build_steps_aux (images : List (String × ResolvedImage))
    (cf : String → Option ComposeDoc) (acc : List PipelineStep) :
    List StepConfig → Except BuildError (List PipelineStep)
  | [] => .ok acc
  | c :: rest =>
    match build_step images cf c with
    | .error e => .error e
    | .ok s => build_steps_aux images cf (odInsert acc s) rest

/-- The Step Graph Builder: `pipeline["steps"]` to the ordered step mapping. -/
def build_steps (images : List (String × ResolvedImage))
    (cf : String → Option ComposeDoc) (configs : List StepConfig) :
    Except BuildError (List PipelineStep) :=
  build_steps_aux images cf [] configs

/-- The Change Detector loop: steps with empty `inputs()` are skipped
outright; otherwise the step id is marked changed iff the git diff of its
input pathspecs reports a difference, i.e. iff some pathspec changed. -/
def compute_changed (pathChanged : String → Bool) (steps : List PipelineStep) :
    List String :=
  steps.filterMap (fun step =>
    let inputs := step.inputs
    if inputs.isEmpty then none
    else if inputs.any pathChanged then some step.id else none)

/-- Dictionary lookup `steps[d]` with a possibly non-string key: only string
keys can hit, since the dictionary is keyed by step ids. -/
def lookup_step (steps : List PipelineStep) : YamlValue → Option PipelineStep
  | .str s => steps.find? (fun t => t.id = s)
  | _ => none

/-- Outcome of the closure traversal: the needed set, a `KeyError` from
`steps[d]`, or exhaustion of the fuel bounding the modelled recursion depth
(proved unreachable for the fuel `compute_needed` supplies). -/
inductive VisitResult where
  | ok (needed : List String)
  | keyError (d : YamlValue)
  | outOfFuel

/-- `trim_pipeline.visit`: if the step is not yet needed, record it and
traverse every entry of its `step_dependencies` through `steps[d]`. -/
def visit (g : List PipelineStep) : Nat → List String → PipelineStep → VisitResult
  | 0, _, _ => .outOfFuel
  | fuel + 1, needed, step =>
    if step.id ∈ needed then .ok needed
    else
      step.step_dependencies.foldl
        (fun r d =>
          match r with
          | .ok needed' =>
            match lookup_step g d with
            | none => .keyError d
            | some s => visit g fuel needed' s
          | r => r)
        (.ok (step.id :: needed))

/-- The loop `for d in ...: visit(steps[d])` threading the traversal state;
an error, once raised, propagates. -/
def visit_deps (g : List PipelineStep) (fuel : Nat) (r : VisitResult)
    (ds : List YamlValue) : VisitResult :=
  ds.foldl
    (fun r d =>
      match r with
      | .ok needed' =>
        match lookup_step g d with
        | none => .keyError d
        | some s => visit g fuel needed' s
      | r => r)
    r

/-- The Dependency Closure Engine: `for step_id in changed: visit(steps[step_id])`
starting from the empty needed set.  The fuel bounds the recursion depth of
`visit`, which never exceeds the number of distinct step ids plus one. -/
def compute_needed (g : List PipelineStep) (changed : List String) : VisitResult :=
  visit_deps g (g.length + 1) (.ok []) (changed.map .str)

/-- The fatal outcomes of the whole selection pass. -/
inductive TrimError where
  | buildError (e : BuildError)
  | keyError (d : YamlValue)
  | fuelExhausted

/-- `trim_pipeline`: build the step graph, detect changes, close over
dependencies, and restrict `pipeline["steps"]` to the needed ids. -/
def trim_pipeline (images : List (String × ResolvedImage))
    (cf : String → Option ComposeDoc) (pathChanged : String → Bool)
    (pipeline : List StepConfig) : Except TrimError (List StepConfig) :=
  match build_steps images cf pipeline with
  | .error e => .error (.buildError e)
  | .ok steps =>
    match compute_needed steps (compute_changed pathChanged steps) with
    | .ok needed => .ok (pipeline.filter (fun c => decide (c.id ∈ needed)))
    | .keyError d => .error (.keyError d)
    | .outOfFuel => .error .fuelExhausted

/-- `b` is reachable from `a` along `step_dependencies` edges of the graph:
the "depends on, directly or transitively" relation of the closure engine. -/
inductive Reaches (g : List PipelineStep) : String → String → Prop where
  | refl (a : String) : Reaches g a a
  | head {a b c : String} {s : PipelineStep} :
      lookup_step g (YamlValue.str a) = some s →
      YamlValue.str b ∈ s.step_dependencies →
      Reaches g b c → Reaches g a c

/-- Number of graph entries whose id the traversal has not recorded yet;
the measure that bounds the recursion depth of `visit`. -/
def unvisited (g : List PipelineStep) (needed : List String) : Nat :=
  (g.filter (fun s => decide (s.id ∉ needed))).length

/-! ### Unfolding lemmas for the closure traversal -/

theorem visit_zero (g : List PipelineStep) (needed : List String)
    (step : PipelineStep) : visit g 0 needed step = .outOfFuel := rfl

theorem visit_succ (g : List PipelineStep) (f : Nat) (needed : List String)
    (step : PipelineStep) :
    visit g (f + 1) needed step =
      if step.id ∈ needed then .ok needed
      else visit_deps g f (.ok (step.id :: needed)) step.step_dependencies := rfl

theorem visit_deps_nil (g : List PipelineStep) (f : Nat) (r : VisitResult) :
    visit_deps g f r [] = r := rfl

theorem visit_deps_keyError (g : List PipelineStep) (f : Nat) (e : YamlValue)
    (ds : List YamlValue) : visit_deps g f (.keyError e) ds = .keyError e := by
  induction ds with
  | nil => rfl
  | cons d ds ih => exact ih

theorem visit_deps_outOfFuel (g : List PipelineStep) (f : Nat)
    (ds : List YamlValue) : visit_deps g f .outOfFuel ds = .outOfFuel := by
  induction ds with
  | nil => rfl
  | cons d ds ih => exact ih

theorem visit_deps_cons (g : List PipelineStep) (f : Nat) (needed : List String)
    (d : YamlValue) (ds : List YamlValue) :
    visit_deps g f (.ok needed) (d :: ds) =
      match lookup_step g d with
      | none => .keyError d
      | some s => visit_deps g f (visit g f needed s) ds := by
  cases h : lookup_step g d with
  | none =>
    show visit_deps g f (match lookup_step g d with
      | none => VisitResult.keyError d
      | some s => visit g f needed s) ds = _
    rw [h]
    exact visit_deps_keyError g f d ds
  | some s =>
    show visit_deps g f (match lookup_step g d with
      | none => VisitResult.keyError d
      | some s => visit g f needed s) ds = _
    rw [h]

theorem visit_deps_cons_none {g : List PipelineStep} {d : YamlValue}
    (f : Nat) (needed : List String) (ds : List YamlValue)
    (hl : lookup_step g d = none) :
    visit_deps g f (.ok needed) (d :: ds) = .keyError d := by
  rw [visit_deps_cons, hl]

theorem visit_deps_cons_some {g : List PipelineStep} {d : YamlValue}
    {s : PipelineStep} (f : Nat) (needed : List String) (ds : List YamlValue)
    (hl : lookup_step g d = some s) :
    visit_deps g f (.ok needed) (d :: ds) =
      visit_deps g f (visit g f needed s) ds := by
  rw [visit_deps_cons, hl]

/-! ### Lookup lemmas -/

theorem lookup_step_some {g : List PipelineStep} {d : YamlValue}
    {s : PipelineStep} (h : lookup_step g d = some s) :
    d = YamlValue.str s.id ∧ s ∈ g := by
  cases d with
  | str a =>
    have hp := List.find?_some h
    have hm := List.mem_of_find?_eq_some h
    have : s.id = a := by simpa using hp
    subst this
    exact ⟨rfl, hm⟩
  | num n => exact absurd h (by simp [lookup_step])
  | list xs => exact absurd h (by simp [lookup_step])

theorem nodup_id_inj {g : List PipelineStep}
    (hnd : (g.map PipelineStep.id).Nodup) {s t : PipelineStep}
    (hs : s ∈ g) (ht : t ∈ g) (h : s.id = t.id) : s = t :=
  List.inj_on_of_nodup_map hnd hs ht h

theorem lookup_step_of_mem {g : List PipelineStep}
    (hnd : (g.map PipelineStep.id).Nodup) {s : PipelineStep} (hs : s ∈ g) :
    lookup_step g (.str s.id) = some s := by
  cases h : lookup_step g (.str s.id) with
  | none =>
    exfalso
    have := List.find?_eq_none.mp h s hs
    simp at this
  | some t =>
    obtain ⟨hd, htg⟩ := lookup_step_some h
    have : t.id = s.id := by
      have := congrArg (fun v => match v with | YamlValue.str a => a | _ => "") hd
      simpa using this.symm
    rw [nodup_id_inj hnd htg hs this]

/-! ### Generic filter-length lemmas for the fuel bound -/

theorem length_filter_le_of_imp {α : Type} (p q : α → Bool) (l : List α)
    (himp : ∀ b, p b = true → q b = true) :
    (l.filter p).length ≤ (l.filter q).length := by
  induction l with
  | nil => simp
  | cons x xs ih =>
    by_cases hp : p x = true
    · rw [List.filter_cons_of_pos hp, List.filter_cons_of_pos (himp x hp)]
      simpa using ih
    · rw [List.filter_cons_of_neg (by simpa using hp)]
      cases hq : q x with
      | false => rw [List.filter_cons_of_neg (by simp [hq])]; exact ih
      | true =>
        rw [List.filter_cons_of_pos hq]
        exact Nat.le_succ_of_le ih

theorem length_filter_lt {α : Type} (p q : α → Bool) (l : List α) (a : α)
    (ha : a ∈ l) (hqa : q a = true) (hpa : p a = false)
    (himp : ∀ b, p b = true → q b = true) :
    (l.filter p).length < (l.filter q).length := by
  induction l with
  | nil => cases ha
  | cons x xs ih =>
    rcases List.mem_cons.mp ha with rfl | hmem
    · rw [List.filter_cons_of_neg (by simp [hpa]), List.filter_cons_of_pos hqa]
      exact Nat.lt_succ_of_le (length_filter_le_of_imp p q xs himp)
    · by_cases hp : p x = true
      · rw [List.filter_cons_of_pos hp, List.filter_cons_of_pos (himp x hp)]
        simpa using ih hmem
      · rw [List.filter_cons_of_neg (by simpa using hp)]
        cases hq : q x with
        | false => rw [List.filter_cons_of_neg (by simp [hq])]; exact ih hmem
        | true =>
          rw [List.filter_cons_of_pos hq]
          exact Nat.lt_succ_of_le (Nat.le_of_lt (ih hmem))

/-! ### Monotonicity: the traversal only grows the needed set -/

theorem visit_mono_aux (g : List PipelineStep) : ∀ fuel : Nat,
    (∀ needed step needed', visit g fuel needed step = .ok needed' →
       ∀ x, x ∈ needed → x ∈ needed') ∧
    (∀ ds needed needed', visit_deps g fuel (.ok needed) ds = .ok needed' →
       ∀ x, x ∈ needed → x ∈ needed') := by
  intro fuel
  induction fuel with
  | zero =>
    constructor
    · intro needed step needed' h
      rw [visit_zero] at h
      exact nomatch h
    · intro ds
      induction ds with
      | nil =>
        intro needed needed' h x hx
        rw [visit_deps_nil] at h
        injection h with h'
        exact h' ▸ hx
      | cons d ds ih =>
        intro needed needed' h x hx
        cases hl : lookup_step g d with
        | none => rw [visit_deps_cons_none _ _ _ hl] at h; exact nomatch h
        | some s =>
          rw [visit_deps_cons_some _ _ _ hl, visit_zero,
            visit_deps_outOfFuel] at h
          exact nomatch h
  | succ f ihf =>
    have Pv : ∀ needed step needed', visit g (f + 1) needed step = .ok needed' →
        ∀ x, x ∈ needed → x ∈ needed' := by
      intro needed step needed' h x hx
      rw [visit_succ] at h
      by_cases hmem : step.id ∈ needed
      · rw [if_pos hmem] at h
        injection h with h'
        exact h' ▸ hx
      · rw [if_neg hmem] at h
        exact ihf.2 _ _ _ h x (List.mem_cons_of_mem _ hx)
    refine ⟨Pv, ?_⟩
    intro ds
    induction ds with
    | nil =>
      intro needed needed' h x hx
      rw [visit_deps_nil] at h
      injection h with h'
      exact h' ▸ hx
    | cons d ds ihds =>
      intro needed needed' h x hx
      cases hl : lookup_step g d with
      | none => rw [visit_deps_cons_none _ _ _ hl] at h; exact nomatch h
      | some s =>
        rw [visit_deps_cons_some _ _ _ hl] at h
        cases hv : visit g (f + 1) needed s with
        | ok needed1 =>
          rw [hv] at h
          exact ihds _ _ h x (Pv _ _ _ hv x hx)
        | keyError e => rw [hv, visit_deps_keyError] at h; exact nomatch h
        | outOfFuel => rw [hv, visit_deps_outOfFuel] at h; exact nomatch h

theorem visit_mono {g : List PipelineStep} {fuel : Nat} {needed : List String}
    {step : PipelineStep} {needed' : List String}
    (h : visit g fuel needed step = .ok needed') :
    ∀ x, x ∈ needed → x ∈ needed' :=
  (visit_mono_aux g fuel).1 needed step needed' h

theorem visit_deps_mono {g : List PipelineStep} {fuel : Nat}
    {needed : List String} {ds : List YamlValue} {needed' : List String}
    (h : visit_deps g fuel (.ok needed) ds = .ok needed') :
    ∀ x, x ∈ needed → x ∈ needed' :=
  (visit_mono_aux g fuel).2 ds needed needed' h

/-- A successful `visit` records the visited step's id. -/
theorem visit_ok_self_mem {g : List PipelineStep} {fuel : Nat}
    {needed : List String} {step : PipelineStep} {needed' : List String}
    (h : visit g fuel needed step = .ok needed') : step.id ∈ needed' := by
  cases fuel with
  | zero => rw [visit_zero] at h; exact nomatch h
  | succ f =>
    rw [visit_succ] at h
    by_cases hmem : step.id ∈ needed
    · rw [if_pos hmem] at h
      injection h with h'
      exact h' ▸ hmem
    · rw [if_neg hmem] at h
      exact visit_deps_mono h step.id (List.mem_cons_self _ _)

/-- A successful dependency loop looked every entry up and recorded the
found step's id. -/
theorem visit_deps_targets {g : List PipelineStep} {fuel : Nat} :
    ∀ {ds : List YamlValue} {needed needed' : List String},
    visit_deps g fuel (.ok needed) ds = .ok needed' →
    ∀ d ∈ ds, ∃ t, lookup_step g d = some t ∧ t.id ∈ needed' := by
  intro ds
  induction ds with
  | nil => intro needed needed' h d hd; exact absurd hd (List.not_mem_nil d)
  | cons d0 ds ih =>
    intro needed needed' h d hd
    cases hl : lookup_step g d0 with
    | none => rw [visit_deps_cons_none _ _ _ hl] at h; exact nomatch h
    | some s =>
      rw [visit_deps_cons_some _ _ _ hl] at h
      cases hv : visit g fuel needed s with
      | ok needed1 =>
        rw [hv] at h
        rcases List.mem_cons.mp hd with rfl | hmem
        · exact ⟨s, hl, visit_deps_mono h s.id (visit_ok_self_mem hv)⟩
        · exact ih h d hmem
      | keyError e => rw [hv, visit_deps_keyError] at h; exact nomatch h
      | outOfFuel => rw [hv, visit_deps_outOfFuel] at h; exact nomatch h

/-! ### Soundness: everything the traversal records is reachable -/

theorem visit_reaches_aux (g : List PipelineStep) : ∀ fuel : Nat,
    (∀ needed step needed',
       lookup_step g (.str step.id) = some step →
       visit g fuel needed step = .ok needed' →
       ∀ x ∈ needed', x ∈ needed ∨ Reaches g step.id x) ∧
    (∀ ds needed needed', visit_deps g fuel (.ok needed) ds = .ok needed' →
       ∀ x ∈ needed', x ∈ needed ∨ ∃ b, YamlValue.str b ∈ ds ∧ Reaches g b x) := by
  intro fuel
  induction fuel with
  | zero =>
    constructor
    · intro needed step needed' _ h
      rw [visit_zero] at h
      exact nomatch h
    · intro ds
      induction ds with
      | nil =>
        intro needed needed' h x hx
        rw [visit_deps_nil] at h
        injection h with h'
        exact Or.inl (h' ▸ hx)
      | cons d ds ih =>
        intro needed needed' h x hx
        cases hl : lookup_step g d with
        | none => rw [visit_deps_cons_none _ _ _ hl] at h; exact nomatch h
        | some s =>
          rw [visit_deps_cons_some _ _ _ hl, visit_zero,
            visit_deps_outOfFuel] at h
          exact nomatch h
  | succ f ihf =>
    have Pv : ∀ needed step needed',
        lookup_step g (.str step.id) = some step →
        visit g (f + 1) needed step = .ok needed' →
        ∀ x ∈ needed', x ∈ needed ∨ Reaches g step.id x := by
      intro needed step needed' hstep h x hx
      rw [visit_succ] at h
      by_cases hmem : step.id ∈ needed
      · rw [if_pos hmem] at h
        injection h with h'
        exact Or.inl (h' ▸ hx)
      · rw [if_neg hmem] at h
        rcases ihf.2 _ _ _ h x hx with hx' | ⟨b, hb, hr⟩
        · rcases List.mem_cons.mp hx' with rfl | hx''
          · exact Or.inr (Reaches.refl _)
          · exact Or.inl hx''
        · exact Or.inr (Reaches.head hstep hb hr)
    refine ⟨Pv, ?_⟩
    intro ds
    induction ds with
    | nil =>
      intro needed needed' h x hx
      rw [visit_deps_nil] at h
      injection h with h'
      exact Or.inl (h' ▸ hx)
    | cons d ds ihds =>
      intro needed needed' h x hx
      cases hl : lookup_step g d with
      | none => rw [visit_deps_cons_none _ _ _ hl] at h; exact nomatch h
      | some s =>
        rw [visit_deps_cons_some _ _ _ hl] at h
        cases hv : visit g (f + 1) needed s with
        | ok needed1 =>
          rw [hv] at h
          obtain ⟨hd, _⟩ := lookup_step_some hl
          rcases ihds _ _ h x hx with hx1 | ⟨b, hb, hr⟩
          · rcases Pv _ _ _ (hd ▸ hl) hv x hx1 with hx0 | hr
            · exact Or.inl hx0
            · exact Or.inr ⟨s.id, ⟨hd ▸ List.mem_cons_self d ds, hr⟩⟩
          · exact Or.inr ⟨b, ⟨List.mem_cons_of_mem d hb, hr⟩⟩
        | keyError e => rw [hv, visit_deps_keyError] at h; exact nomatch h
        | outOfFuel => rw [hv, visit_deps_outOfFuel] at h; exact nomatch h

/-! ### Closedness: newly recorded steps have all dependencies resolved and
recorded -/

theorem visit_closed_aux (g : List PipelineStep) : ∀ fuel : Nat,
    (∀ needed step needed',
       lookup_step g (.str step.id) = some step →
       visit g fuel needed step = .ok needed' →
       ∀ x, x ∈ needed' → x ∉ needed →
         ∀ s, lookup_step g (.str x) = some s →
           ∀ d ∈ s.step_dependencies,
             ∃ t, lookup_step g d = some t ∧ t.id ∈ needed') ∧
    (∀ ds needed needed', visit_deps g fuel (.ok needed) ds = .ok needed' →
       ∀ x, x ∈ needed' → x ∉ needed →
         ∀ s, lookup_step g (.str x) = some s →
           ∀ d ∈ s.step_dependencies,
             ∃ t, lookup_step g d = some t ∧ t.id ∈ needed') := by
  intro fuel
  induction fuel with
  | zero =>
    constructor
    · intro needed step needed' _ h
      rw [visit_zero] at h
      exact nomatch h
    · intro ds
      induction ds with
      | nil =>
        intro needed needed' h x hx hxn
        rw [visit_deps_nil] at h
        injection h with h'
        exact absurd (h' ▸ hx) hxn
      | cons d ds ih =>
        intro needed needed' h
        cases hl : lookup_step g d with
        | none => rw [visit_deps_cons_none _ _ _ hl] at h; exact nomatch h
        | some s =>
          rw [visit_deps_cons_some _ _ _ hl, visit_zero,
            visit_deps_outOfFuel] at h
          exact nomatch h
  | succ f ihf =>
    have Pv : ∀ needed step needed',
        lookup_step g (.str step.id) = some step →
        visit g (f + 1) needed step = .ok needed' →
        ∀ x, x ∈ needed' → x ∉ needed →
          ∀ s, lookup_step g (.str x) = some s →
            ∀ d ∈ s.step_dependencies,
              ∃ t, lookup_step g d = some t ∧ t.id ∈ needed' := by
      intro needed step needed' hstep h x hx hxn s hls d hd
      rw [visit_succ] at h
      by_cases hmem : step.id ∈ needed
      · rw [if_pos hmem] at h
        injection h with h'
        exact absurd (h' ▸ hx) hxn
      · rw [if_neg hmem] at h
        by_cases hxs : x = step.id
        · subst hxs
          have hss : s = step := by
            rw [hstep] at hls
            injection hls with h'
            exact h'.symm
          subst hss
          exact visit_deps_targets h d hd
        · have hxn' : x ∉ step.id :: needed := by
            intro hc
            rcases List.mem_cons.mp hc with h1 | h1
            · exact hxs h1
            · exact hxn h1
          exact ihf.2 _ _ _ h x hx hxn' s hls d hd
    refine ⟨Pv, ?_⟩
    intro ds
    induction ds with
    | nil =>
      intro needed needed' h x hx hxn
      rw [visit_deps_nil] at h
      injection h with h'
      exact absurd (h' ▸ hx) hxn
    | cons d0 ds ihds =>
      intro needed needed' h x hx hxn s hls d hd
      cases hl : lookup_step g d0 with
      | none => rw [visit_deps_cons_none _ _ _ hl] at h; exact nomatch h
      | some s0 =>
        rw [visit_deps_cons_some _ _ _ hl] at h
        cases hv : visit g (f + 1) needed s0 with
        | ok needed1 =>
          rw [hv] at h
          obtain ⟨hd0, _⟩ := lookup_step_some hl
          by_cases hx1 : x ∈ needed1
          · obtain ⟨t, hlt, htm⟩ :=
              Pv _ _ _ (hd0 ▸ hl) hv x hx1 hxn s hls d hd
            exact ⟨t, hlt, visit_deps_mono h t.id htm⟩
          · exact ihds _ _ h x hx hx1 s hls d hd
        | keyError e => rw [hv, visit_deps_keyError] at h; exact nomatch h
        | outOfFuel => rw [hv, visit_deps_outOfFuel] at h; exact nomatch h

/-! ### Fuel sufficiency: the visited-check bounds the recursion depth -/

theorem unvisited_lt_of_not_mem {g : List PipelineStep}
    {step : PipelineStep} {needed : List String}
    (hg : step ∈ g) (hmem : step.id ∉ needed) :
    unvisited g (step.id :: needed) < unvisited g needed := by
  apply length_filter_lt _ _ g step hg
  · simpa using hmem
  · simp
  · intro b hb
    simp only [decide_eq_true_eq, List.mem_cons, not_or] at hb ⊢
    exact hb.2

theorem unvisited_le_of_subset {g : List PipelineStep}
    {needed needed' : List String} (hsub : ∀ x, x ∈ needed → x ∈ needed') :
    unvisited g needed' ≤ unvisited g needed := by
  apply length_filter_le_of_imp
  intro b hb
  simp only [decide_eq_true_eq] at hb ⊢
  exact fun hc => hb (hsub _ hc)

theorem visit_fuel_aux (g : List PipelineStep) : ∀ fuel : Nat,
    (∀ needed step,
       lookup_step g (.str step.id) = some step →
       unvisited g needed + 1 ≤ fuel →
       visit g fuel needed step ≠ .outOfFuel) ∧
    (∀ ds needed, unvisited g needed + 1 ≤ fuel →
       visit_deps g fuel (.ok needed) ds ≠ .outOfFuel) := by
  intro fuel
  induction fuel with
  | zero =>
    constructor
    · intro needed step _ hf
      exact absurd hf (by omega)
    · intro ds needed hf
      exact absurd hf (by omega)
  | succ f ihf =>
    have Pv : ∀ needed step,
        lookup_step g (.str step.id) = some step →
        unvisited g needed + 1 ≤ f + 1 →
        visit g (f + 1) needed step ≠ .outOfFuel := by
      intro needed step hstep hf
      rw [visit_succ]
      by_cases hmem : step.id ∈ needed
      · rw [if_pos hmem]
        exact fun h => nomatch h
      · rw [if_neg hmem]
        obtain ⟨_, hg⟩ := lookup_step_some hstep
        have hlt := unvisited_lt_of_not_mem hg hmem
        exact ihf.2 step.step_dependencies (step.id :: needed) (by omega)
    refine ⟨Pv, ?_⟩
    intro ds
    induction ds with
    | nil =>
      intro needed _ h
      rw [visit_deps_nil] at h
      exact nomatch h
    | cons d ds ihds =>
      intro needed hf
      cases hl : lookup_step g d with
      | none =>
        rw [visit_deps_cons_none _ _ _ hl]
        exact fun h => nomatch h
      | some s =>
        rw [visit_deps_cons_some _ _ _ hl]
        cases hv : visit g (f + 1) needed s with
        | ok needed1 =>
          have hle := @unvisited_le_of_subset g needed needed1 (visit_mono hv)
          exact ihds needed1 (by omega)
        | keyError e =>
          rw [visit_deps_keyError]
          exact fun h => nomatch h
        | outOfFuel =>
          obtain ⟨hd, _⟩ := lookup_step_some hl
          exact absurd hv (Pv needed s (hd ▸ hl) hf)

/-! ### Properties of `compute_needed` -/

theorem Reaches.trans {g : List PipelineStep} {a b c : String}
    (h1 : Reaches g a b) (h2 : Reaches g b c) : Reaches g a c := by
  induction h1 with
  | refl => exact h2
  | head hl hd _ ih => exact Reaches.head hl hd (ih h2)

/-- Every directly changed id ends up needed. -/
theorem compute_needed_superset {g : List PipelineStep} {changed needed : List String}
    (h : compute_needed g changed = .ok needed) :
    ∀ c ∈ changed, c ∈ needed := by
  intro c hc
  obtain ⟨t, hlt, htm⟩ := visit_deps_targets h (.str c)
    (List.mem_map_of_mem YamlValue.str hc)
  obtain ⟨hd, _⟩ := lookup_step_some hlt
  injection hd with hd'
  exact hd' ▸ htm

/-- Every needed step has every dependency entry resolved to a step whose id
is needed. -/
theorem compute_needed_closed {g : List PipelineStep} {changed needed : List String}
    (h : compute_needed g changed = .ok needed) :
    ∀ x ∈ needed, ∀ s, lookup_step g (.str x) = some s →
      ∀ d ∈ s.step_dependencies, ∃ t, lookup_step g d = some t ∧ t.id ∈ needed := by
  intro x hx s hls d hd
  exact (visit_closed_aux g (g.length + 1)).2 _ _ _ h x hx
    (List.not_mem_nil x) s hls d hd

/-- Membership in the needed set is exactly reachability from a changed id. -/
theorem compute_needed_mem {g : List PipelineStep} {changed needed : List String}
    (h : compute_needed g changed = .ok needed) (x : String) :
    x ∈ needed ↔ ∃ c ∈ changed, Reaches g c x := by
  constructor
  · intro hx
    rcases (visit_reaches_aux g (g.length + 1)).2 _ _ _ h x hx with hc | ⟨b, hb, hr⟩
    · exact absurd hc (List.not_mem_nil x)
    · obtain ⟨a, ha, hab⟩ := List.mem_map.mp hb
      injection hab with hab'
      exact ⟨a, ha, hab' ▸ hr⟩
  · rintro ⟨c, hc, hr⟩
    have hcn : c ∈ needed := compute_needed_superset h c hc
    clear hc
    induction hr with
    | refl => exact hcn
    | head hl hd _ ih =>
      obtain ⟨t, hlt, htm⟩ := compute_needed_closed h _ hcn _ hl _ hd
      obtain ⟨hd', _⟩ := lookup_step_some hlt
      injection hd' with hd''
      exact ih (hd'' ▸ htm)

/-- The fuel supplied by `compute_needed` suffices on every graph: the
traversal never reports fuel exhaustion. -/
theorem compute_needed_not_outOfFuel (g : List PipelineStep)
    (changed : List String) : compute_needed g changed ≠ .outOfFuel := by
  apply (visit_fuel_aux g (g.length + 1)).2
  have : unvisited g [] ≤ g.length := List.length_filter_le _ g
  omega

/-! ### Properties of the change detector -/

theorem compute_changed_mem (pc : String → Bool) (g : List PipelineStep)
    (x : String) :
    x ∈ compute_changed pc g ↔
      ∃ s, s ∈ g ∧ s.id = x ∧ s.inputs ≠ [] ∧ s.inputs.any pc = true := by
  unfold compute_changed
  rw [List.mem_filterMap]
  constructor
  · rintro ⟨s, hs, hf⟩
    refine ⟨s, hs, ?_⟩
    by_cases h1 : s.inputs.isEmpty
    · rw [if_pos h1] at hf
      exact nomatch hf
    · rw [if_neg h1] at hf
      by_cases h2 : s.inputs.any pc
      · rw [if_pos h2] at hf
        injection hf with hf'
        refine ⟨hf', ?_, h2⟩
        intro hc
        exact h1 (List.isEmpty_iff.mpr hc)
      · rw [if_neg h2] at hf
        exact nomatch hf
  · rintro ⟨s, hs, hid, hne, hany⟩
    refine ⟨s, hs, ?_⟩
    rw [if_neg (by simpa [List.isEmpty_iff] using hne), if_pos hany, hid]

/-! ### Properties of the step-graph builder -/

theorem odInsert_mem_self (acc : List PipelineStep) (s : PipelineStep) :
    s ∈ odInsert acc s := by
  unfold odInsert
  by_cases h : acc.any (fun t => t.id = s.id)
  · rw [if_pos h]
    obtain ⟨t, ht, htid⟩ := List.any_eq_true.mp h
    simp only [decide_eq_true_eq] at htid
    exact List.mem_map.mpr ⟨t, ht, by simp [htid]⟩
  · rw [if_neg h]
    exact List.mem_append_right _ (List.mem_singleton_self s)

theorem odInsert_mem {acc : List PipelineStep} {s t : PipelineStep}
    (h : t ∈ odInsert acc s) : t ∈ acc ∨ t = s := by
  unfold odInsert at h
  by_cases ha : acc.any (fun t => t.id = s.id)
  · rw [if_pos ha] at h
    obtain ⟨u, hu, huf⟩ := List.mem_map.mp h
    by_cases hid : u.id = s.id
    · rw [if_pos hid] at huf
      exact Or.inr huf.symm
    · rw [if_neg hid] at huf
      exact Or.inl (huf ▸ hu)
  · rw [if_neg ha] at h
    rcases List.mem_append.mp h with h1 | h1
    · exact Or.inl h1
    · exact Or.inr (List.mem_singleton.mp h1)

theorem odInsert_preserve {acc : List PipelineStep} {s t : PipelineStep}
    (ht : t ∈ acc) (hid : t.id ≠ s.id) : t ∈ odInsert acc s := by
  unfold odInsert
  by_cases ha : acc.any (fun t => t.id = s.id)
  · rw [if_pos ha]
    exact List.mem_map.mpr ⟨t, ht, by simp [hid]⟩
  · rw [if_neg ha]
    exact List.mem_append_left _ ht

theorem odInsert_ids_nodup {acc : List PipelineStep} {s : PipelineStep}
    (h : (acc.map PipelineStep.id).Nodup) :
    ((odInsert acc s).map PipelineStep.id).Nodup := by
  unfold odInsert
  by_cases ha : acc.any (fun t => t.id = s.id)
  · rw [if_pos ha, List.map_map]
    have : acc.map (PipelineStep.id ∘ fun t => if t.id = s.id then s else t) =
        acc.map PipelineStep.id := by
      apply List.map_congr_left
      intro t _
      by_cases hid : t.id = s.id
      · simp [hid]
      · simp [hid]
    rw [this]
    exact h
  · rw [if_neg ha, List.map_append]
    rw [List.nodup_append]
    refine ⟨h, List.nodup_singleton _, ?_⟩
    intro x hx hxs
    rw [List.mem_singleton.mp hxs] at hx
    obtain ⟨t, ht, htid⟩ := List.mem_map.mp hx
    exact (List.any_eq_true.not.mp ha) ⟨t, ht, by simpa using htid⟩

theorem build_steps_aux_nodup {images : List (String × ResolvedImage)}
    {cf : String → Option ComposeDoc} :
    ∀ {configs : List StepConfig} {acc g : List PipelineStep},
    (acc.map PipelineStep.id).Nodup →
    build_steps_aux images cf acc configs = .ok g →
    (g.map PipelineStep.id).Nodup := by
  intro configs
  induction configs with
  | nil =>
    intro acc g hnd h
    injection h with h'
    exact h' ▸ hnd
  | cons c rest ih =>
    intro acc g hnd h
    unfold build_steps_aux at h
    cases hb : build_step images cf c with
    | error e => rw [hb] at h; exact nomatch h
    | ok s =>
      rw [hb] at h
      exact ih (odInsert_ids_nodup hnd) h

/-- The builder's output mapping has pairwise distinct ids. -/
theorem build_steps_nodup {images : List (String × ResolvedImage)}
    {cf : String → Option ComposeDoc} {configs : List StepConfig}
    {g : List PipelineStep} (h : build_steps images cf configs = .ok g) :
    (g.map PipelineStep.id).Nodup :=
  build_steps_aux_nodup (by simp) h

/-- Decomposition of a successful `build_step`: each stage succeeded and the
resulting record assembles their outputs. -/
theorem build_step_ok {images : List (String × ResolvedImage)}
    {cf : String → Option ComposeDoc} {config : StepConfig} {s : PipelineStep}
    (h : build_step images cf config = .ok s) :
    ∃ manual imgdeps deps plimgs,
      (match config.inputs with
       | none => Except.ok ([], [])
       | some inps => process_inputs images inps) = .ok (manual, imgdeps) ∧
      (match config.depends_on with
       | none => Except.ok []
       | some d => parse_depends_on d) = .ok deps ∧
      (match config.plugins with
       | none => Except.ok []
       | some ps => process_plugins images cf ps) = .ok plimgs ∧
      s = ⟨config.id, manual, imgdeps ++ plimgs, deps⟩ := by
  unfold build_step at h
  split at h
  · exact nomatch h
  · rename_i manual imgdeps h1
    split at h
    · exact nomatch h
    · rename_i deps h2
      split at h
      · exact nomatch h
      · rename_i plimgs h3
        injection h with h'
        exact ⟨manual, imgdeps, deps, plimgs, h1, h2, h3, h'.symm⟩

theorem build_step_id {images : List (String × ResolvedImage)}
    {cf : String → Option ComposeDoc} {config : StepConfig} {s : PipelineStep}
    (h : build_step images cf config = .ok s) : s.id = config.id := by
  obtain ⟨_, _, _, _, _, _, _, hs⟩ := build_step_ok h
  rw [hs]

/-- If the whole builder run succeeds, building each individual record
succeeded. -/
theorem build_steps_aux_each_ok {images : List (String × ResolvedImage)}
    {cf : String → Option ComposeDoc} :
    ∀ {configs : List StepConfig} {acc g : List PipelineStep},
    build_steps_aux images cf acc configs = .ok g →
    ∀ c ∈ configs, ∃ s, build_step images cf c = .ok s := by
  intro configs
  induction configs with
  | nil => intro acc g _ c hc; exact absurd hc (List.not_mem_nil c)
  | cons c0 rest ih =>
    intro acc g h c hc
    unfold build_steps_aux at h
    cases hb : build_step images cf c0 with
    | error e => rw [hb] at h; exact nomatch h
    | ok s0 =>
      rw [hb] at h
      rcases List.mem_cons.mp hc with rfl | hmem
      · exact ⟨s0, hb⟩
      · exact ih h c hmem

/-- A step already in the accumulator survives the rest of the builder run
as long as no later record reuses its id. -/
theorem build_steps_aux_preserve {images : List (String × ResolvedImage)}
    {cf : String → Option ComposeDoc} :
    ∀ {configs : List StepConfig} {acc g : List PipelineStep} {t : PipelineStep},
    t ∈ acc → t.id ∉ configs.map StepConfig.id →
    build_steps_aux images cf acc configs = .ok g → t ∈ g := by
  intro configs
  induction configs with
  | nil =>
    intro acc g t ht _ h
    injection h with h'
    exact h' ▸ ht
  | cons c0 rest ih =>
    intro acc g t ht hid h
    unfold build_steps_aux at h
    cases hb : build_step images cf c0 with
    | error e => rw [hb] at h; exact nomatch h
    | ok s0 =>
      rw [hb] at h
      have hne : t.id ≠ s0.id := by
        rw [build_step_id hb]
        intro hc
        exact hid (List.mem_cons.mpr (Or.inl hc))
      exact ih (odInsert_preserve ht hne)
        (fun hc => hid (List.mem_cons.mpr (Or.inr hc))) h

/-- When record ids are pairwise distinct, the step built from a record is in
the builder's output. -/
theorem build_steps_mem {images : List (String × ResolvedImage)}
    {cf : String → Option ComposeDoc} :
    ∀ {configs : List StepConfig} {g : List PipelineStep} {c : StepConfig}
      {s : PipelineStep} {acc : List PipelineStep},
    (configs.map StepConfig.id).Nodup →
    build_steps_aux images cf acc configs = .ok g →
    c ∈ configs → build_step images cf c = .ok s → s ∈ g := by
  intro configs
  induction configs with
  | nil => intro g c s acc _ _ hc; exact absurd hc (List.not_mem_nil c)
  | cons c0 rest ih =>
    intro g c s acc hnd h hc hbs
    rw [List.map_cons] at hnd
    unfold build_steps_aux at h
    cases hb : build_step images cf c0 with
    | error e => rw [hb] at h; exact nomatch h
    | ok s0 =>
      rw [hb] at h
      rcases List.mem_cons.mp hc with rfl | hmem
      · have hs : s = s0 := by
          rw [hbs] at hb
          exact Except.ok.inj hb
        subst hs
        have hid : s.id ∉ rest.map StepConfig.id := by
          rw [build_step_id hbs]
          exact (List.nodup_cons.mp hnd).1
        exact build_steps_aux_preserve (odInsert_mem_self acc s) hid h
      · exact ih (List.nodup_cons.mp hnd).2 h hmem hbs

/-- Every id in the builder's output comes from some record of the pipeline. -/
theorem build_steps_ids {images : List (String × ResolvedImage)}
    {cf : String → Option ComposeDoc} :
    ∀ {configs : List StepConfig} {acc g : List PipelineStep} {s : PipelineStep},
    build_steps_aux images cf acc configs = .ok g → s ∈ g →
    s ∈ acc ∨ ∃ c ∈ configs, c.id = s.id := by
  intro configs
  induction configs with
  | nil =>
    intro acc g s h hs
    injection h with h'
    exact Or.inl (h' ▸ hs)
  | cons c0 rest ih =>
    intro acc g s h hs
    unfold build_steps_aux at h
    cases hb : build_step images cf c0 with
    | error e => rw [hb] at h; exact nomatch h
    | ok s0 =>
      rw [hb] at h
      rcases ih h hs with hacc | ⟨c, hc, hcid⟩
      · rcases odInsert_mem hacc with h1 | rfl
        · exact Or.inl h1
        · exact Or.inr ⟨c0, List.mem_cons_self _ _, (build_step_id hb).symm⟩
      · exact Or.inr ⟨c, List.mem_cons_of_mem _ hc, hcid⟩

/-! ### Compose-reference expander lemmas -/

theorem image_inputs_mem {imgs : List ResolvedImage} {img : ResolvedImage}
    (h : img ∈ imgs) {p : String} (hp : p ∈ img.transitiveInputs) :
    p ∈ image_inputs imgs := by
  induction imgs with
  | nil => exact absurd h (List.not_mem_nil img)
  | cons i rest ih =>
    rcases List.mem_cons.mp h with rfl | hmem
    · exact List.mem_append_left _ hp
    · exact List.mem_append_right _ (ih hmem)

theorem find_service_images_mem {images : List (String × ResolvedImage)} :
    ∀ {svcs : List ServiceConfig} {out : List ResolvedImage},
    find_service_images images svcs = .ok out →
    ∀ svc ∈ svcs, ∀ {nm : String} {img : ResolvedImage},
      svc.mzbuild = some nm → lookupImage images nm = some img → img ∈ out := by
  intro svcs
  induction svcs with
  | nil => intro out _ svc hsvc; exact absurd hsvc (List.not_mem_nil svc)
  | cons s0 rest ih =>
    intro out h svc hsvc nm img hmz hlk
    unfold find_service_images at h
    split at h
    · rename_i hm
      rcases List.mem_cons.mp hsvc with rfl | hmem
      · rw [hmz] at hm; exact nomatch hm
      · exact ih h svc hmem hmz hlk
    · rename_i nm0 hm
      split at h
      · exact nomatch h
      · rename_i img0 hlk0
        split at h
        · exact nomatch h
        · rename_i out0 hrest
          have hout : img0 :: out0 = out := Except.ok.inj h
          rcases List.mem_cons.mp hsvc with rfl | hmem
          · rw [hmz] at hm
            injection hm with hm'
            rw [← hm'] at hlk0
            rw [hlk] at hlk0
            injection hlk0 with h2
            rw [← h2] at hout
            exact hout ▸ List.mem_cons_self _ _
          · exact hout ▸ List.mem_cons_of_mem _ (ih hrest svc hmem hmz hlk)

theorem process_plugins_mem {images : List (String × ResolvedImage)}
    {cf : String → Option ComposeDoc} :
    ∀ {ps : List (String × String)} {out : List ResolvedImage},
    process_plugins images cf ps = .ok out →
    ∀ {path : String}, ("./ci/plugins/mzcompose", path) ∈ ps →
    ∃ imgs, find_compose_images images cf path = .ok imgs ∧
      ∀ i ∈ imgs, i ∈ out := by
  intro ps
  induction ps with
  | nil => intro out _ path hp; exact absurd hp (List.not_mem_nil _)
  | cons hd rest ih =>
    obtain ⟨n0, p0⟩ := hd
    intro out h path hp
    unfold process_plugins at h
    by_cases hn : n0 = "./ci/plugins/mzcompose"
    · rw [if_pos hn] at h
      cases hfc : find_compose_images images cf p0 with
      | error e => rw [hfc] at h; exact nomatch h
      | ok imgs0 =>
        rw [hfc] at h
        cases hpp : process_plugins images cf rest with
        | error e => rw [hpp] at h; exact nomatch h
        | ok out0 =>
          rw [hpp] at h
          have hout : imgs0 ++ out0 = out := Except.ok.inj h
          rcases List.mem_cons.mp hp with heq | hmem
          · injection heq with h1 h2
            subst h2
            exact ⟨imgs0, hfc, fun i hi => hout ▸ List.mem_append_left _ hi⟩
          · obtain ⟨imgs, hfc', hsub⟩ := ih hpp hmem
            exact ⟨imgs, hfc', fun i hi =>
              hout ▸ List.mem_append_right _ (hsub i hi)⟩
    · rw [if_neg hn] at h
      rcases List.mem_cons.mp hp with heq | hmem
      · injection heq with h1 h2
        exact absurd h1.symm hn
      · exact ih h hmem

theorem find_compose_images_mem {images : List (String × ResolvedImage)}
    {cf : String → Option ComposeDoc} {path : String} {doc : ComposeDoc}
    {imgs : List ResolvedImage}
    (hcf : cf path = some doc)
    (h : find_compose_images images cf path = .ok imgs)
    {svcName : String} {svc : ServiceConfig} {nm : String} {img : ResolvedImage}
    (hsvc : (svcName, svc) ∈ doc.services)
    (hmz : svc.mzbuild = some nm)
    (hlk : lookupImage images nm = some img) : img ∈ imgs := by
  unfold find_compose_images at h
  rw [hcf] at h
  exact find_service_images_mem h svc
    (List.mem_map.mpr ⟨(svcName, svc), hsvc, rfl⟩) hmz hlk

/-! ### Builder failure lemmas -/

theorem build_step_bad_depends_on {images : List (String × ResolvedImage)}
    {cf : String → Option ComposeDoc} {c : StepConfig} {v : YamlValue}
    (hd : c.depends_on = some v)
    (hs : ∀ s, v ≠ YamlValue.str s) (hl : ∀ xs, v ≠ YamlValue.list xs) :
    ∃ e, build_step images cf c = .error e := by
  unfold build_step
  cases hin : (match c.inputs with
               | none => Except.ok ([], [])
               | some inps => process_inputs images inps) with
  | error e => exact ⟨e, rfl⟩
  | ok pr =>
    obtain ⟨manual, imgdeps⟩ := pr
    cases v with
    | str s => exact absurd rfl (hs s)
    | list xs => exact absurd rfl (hl xs)
    | num n =>
      refine ⟨.badDependsOn (.num n), ?_⟩
      simp only [hd, parse_depends_on]

theorem build_steps_aux_fails {images : List (String × ResolvedImage)}
    {cf : String → Option ComposeDoc} :
    ∀ {configs : List StepConfig} {acc : List PipelineStep} {c : StepConfig},
    c ∈ configs → (∃ e', build_step images cf c = .error e') →
    ∃ e, build_steps_aux images cf acc configs = .error e := by
  intro configs
  induction configs with
  | nil => intro acc c hc; exact absurd hc (List.not_mem_nil c)
  | cons c0 rest ih =>
    intro acc c hc hfail
    cases hb : build_step images cf c0 with
    | error e => exact ⟨e, by unfold build_steps_aux; rw [hb]⟩
    | ok s0 =>
      rcases List.mem_cons.mp hc with rfl | hmem
      · obtain ⟨e', he'⟩ := hfail
        rw [hb] at he'
        exact nomatch he'
      · obtain ⟨e, he⟩ := ih hmem hfail
        exact ⟨e, by unfold build_steps_aux; rw [hb]; exact he⟩

/-! ### Permutation invariance of lookup and reachability -/

theorem lookup_step_perm {g g' : List PipelineStep}
    (hperm : g.Perm g') (hnd : (g.map PipelineStep.id).Nodup)
    (d : YamlValue) : lookup_step g d = lookup_step g' d := by
  cases d with
  | num n => rfl
  | list xs => rfl
  | str a =>
    show g.find? (fun t => t.id = a) = g'.find? (fun t => t.id = a)
    cases h : g.find? (fun t => t.id = a) with
    | none =>
      cases h' : g'.find? (fun t => t.id = a) with
      | none => rfl
      | some t =>
        exfalso
        have htg : t ∈ g := hperm.mem_iff.mpr (List.mem_of_find?_eq_some h')
        have hpt := List.find?_some h'
        exact List.find?_eq_none.mp h t htg hpt
    | some s =>
      cases h' : g'.find? (fun t => t.id = a) with
      | none =>
        exfalso
        have hsg' : s ∈ g' := hperm.mem_iff.mp (List.mem_of_find?_eq_some h)
        have hps := List.find?_some h
        exact List.find?_eq_none.mp h' s hsg' hps
      | some t =>
        have hsg : s ∈ g := List.mem_of_find?_eq_some h
        have htg : t ∈ g := hperm.mem_iff.mpr (List.mem_of_find?_eq_some h')
        have hsa : s.id = a := by simpa using List.find?_some h
        have hta : t.id = a := by simpa using List.find?_some h'
        rw [nodup_id_inj hnd hsg htg (hsa.trans hta.symm)]

theorem Reaches_perm {g g' : List PipelineStep}
    (hperm : g.Perm g') (hnd : (g.map PipelineStep.id).Nodup)
    {a b : String} (h : Reaches g a b) : Reaches g' a b := by
  induction h with
  | refl => exact Reaches.refl _
  | head hl hd _ ih =>
    exact Reaches.head (lookup_step_perm hperm hnd _ ▸ hl) hd ih

/-! ### Steps with empty inputs are never marked changed -/

theorem changed_not_mem_of_inputs_nil
    {images : List (String × ResolvedImage)} {cf : String → Option ComposeDoc}
    {configs : List StepConfig} {g : List PipelineStep} {s : PipelineStep}
    (hb : build_steps images cf configs = .ok g)
    (hs : s ∈ g) (hin : s.inputs = []) (pc : String → Bool) :
    s.id ∉ compute_changed pc g := by
  intro hc
  obtain ⟨t, htg, htid, htne, _⟩ := (compute_changed_mem pc g s.id).mp hc
  have hts : t = s := nodup_id_inj (build_steps_nodup hb) htg hs htid
  rw [hts, hin] at htne
  exact htne rfl

/-! ### Concrete pipelines used to instantiate the theorems -/

def exImages0 : List (String × ResolvedImage) := []

def exCf0 : String → Option ComposeDoc := fun _ => none

def exPc : String → Bool := fun p => p == "y/"

def exPcTrue : String → Bool := fun _ => true

def exCfgA : StepConfig := ⟨"a", none, none, none, []⟩

def exCfgB : StepConfig := ⟨"b", some ["y/"], some (.str "a"), none, []⟩

def exConfigs : List StepConfig := [exCfgA, exCfgB]

def exStepA : PipelineStep := ⟨"a", [], [], []⟩

def exStepB : PipelineStep := ⟨"b", ["y/"], [], [.str "a"]⟩

def exG : List PipelineStep := [exStepA, exStepB]

def exImg : ResolvedImage := ⟨"img1", ["src/img1/main"]⟩

def exImages1 : List (String × ResolvedImage) := [("img1", exImg)]

def exSvc : ServiceConfig := ⟨some "img1"⟩

def exDoc : ComposeDoc := ⟨[("svc", exSvc)]⟩

def exStepD : PipelineStep := ⟨"d", [], [exImg], []⟩

def exG7 : List PipelineStep := [exStepD]

def exCf1 : String → Option ComposeDoc :=
  fun p => if p = "comp.yml" then some exDoc else none

def exPc1 : String → Bool := fun p => p == "src/img1/main"

def exCfgD : StepConfig :=
  ⟨"d", none, none, some [("./ci/plugins/mzcompose", "comp.yml")], []⟩

def exCfgGhost : StepConfig := ⟨"g1", some ["x"], some (.str "ghost"), none, []⟩

def exPcX : String → Bool := fun p => p == "x"

def exStepGhost : PipelineStep := ⟨"g1", ["x"], [], [.str "ghost"]⟩

def exCfgBadList : StepConfig := ⟨"bad", none, some (.list [.num 5]), none, []⟩

def exCfgBadNum : StepConfig := ⟨"bad2", none, some (.num 7), none, []⟩

/-! ### Claim theorems -/

/-- Claim C8: the depth-first closure traversal terminates on every step
graph, cycles included: the fuel `compute_needed` supplies (bounded because a
step already recorded in the needed set is never visited again) can never be
exhausted, so the traversal always returns a needed set or a lookup error. -/
theorem C8_closure_traversal_terminates (g : List PipelineStep)
    (changed : List String) : compute_needed g changed ≠ .outOfFuel :=
  compute_needed_not_outOfFuel g changed

/-- Claim C1: for every pipeline definition and every change list, a
successful closure run yields a needed set that contains every directly
changed id and is closed under `step_dependencies`: if step `s` is needed and
id `d` is in `s.step_dependencies`, then `d` is needed. -/
theorem C1_needed_superset_and_closed
    {images : List (String × ResolvedImage)} {cf : String → Option ComposeDoc}
    {configs : List StepConfig} {g : List PipelineStep}
    {changed needed : List String}
    (hb : build_steps images cf configs = .ok g)
    (hn : compute_needed g changed = .ok needed) :
    (∀ c ∈ changed, c ∈ needed) ∧
    (∀ s ∈ g, s.id ∈ needed →
       ∀ d, YamlValue.str d ∈ s.step_dependencies → d ∈ needed) := by
  refine ⟨compute_needed_superset hn, ?_⟩
  intro s hs hid d hd
  have hls := lookup_step_of_mem (build_steps_nodup hb) hs
  obtain ⟨t, hlt, htm⟩ := compute_needed_closed hn s.id hid s hls (.str d) hd
  obtain ⟨hd', _⟩ := lookup_step_some hlt
  injection hd' with hd''
  exact hd'' ▸ htm

/-- Witness for C1 on a concrete two-step pipeline where only `b` changed. -/
theorem C1_witness :
    (∀ c ∈ compute_changed exPc exG, c ∈ ["a", "b"]) ∧
    (∀ s ∈ exG, s.id ∈ ["a", "b"] →
       ∀ d, YamlValue.str d ∈ s.step_dependencies → d ∈ ["a", "b"]) :=
  @C1_needed_superset_and_closed exImages0 exCf0 exConfigs exG
    (compute_changed exPc exG) ["a", "b"] rfl rfl

/-- Claim C2: a step whose derived input set `inputs()` is empty is never
added to the directly-changed set, whatever the diff results are. -/
theorem C2_empty_inputs_never_changed
    {images : List (String × ResolvedImage)} {cf : String → Option ComposeDoc}
    {configs : List StepConfig} {g : List PipelineStep} {s : PipelineStep}
    (hb : build_steps images cf configs = .ok g)
    (hs : s ∈ g) (hin : s.inputs = []) (pc : String → Bool) :
    s.id ∉ compute_changed pc g :=
  changed_not_mem_of_inputs_nil hb hs hin pc

/-- Witness for C2: the inputless step `a` is not changed even when every
diff query reports a change. -/
theorem C2_witness : "a" ∉ compute_changed exPcTrue exG :=
  @C2_empty_inputs_never_changed exImages0 exCf0 exConfigs exG exStepA
    rfl (List.mem_cons_self exStepA [exStepB]) rfl exPcTrue

/-- Claim C3: the needed set is the least set containing the changed ids and
closed under the depends-on relation, and an id absent from it is not changed
and has no needed step depending on it, directly or transitively. -/
theorem C3_needed_least_closed_superset
    {g : List PipelineStep} {changed needed : List String}
    (hn : compute_needed g changed = .ok needed) :
    (∀ c ∈ changed, c ∈ needed) ∧
    (∀ x ∈ needed, ∀ s, lookup_step g (.str x) = some s →
       ∀ b, YamlValue.str b ∈ s.step_dependencies → b ∈ needed) ∧
    (∀ P : String → Prop, (∀ c ∈ changed, P c) →
       (∀ a s, P a → lookup_step g (.str a) = some s →
          ∀ b, YamlValue.str b ∈ s.step_dependencies → P b) →
       ∀ x ∈ needed, P x) ∧
    (∀ x, x ∉ needed →
       x ∉ changed ∧ ¬∃ y, y ∈ needed ∧ y ≠ x ∧ Reaches g y x) := by
  have hclosed : ∀ x ∈ needed, ∀ s, lookup_step g (.str x) = some s →
      ∀ b, YamlValue.str b ∈ s.step_dependencies → b ∈ needed := by
    intro x hx s hls b hb
    obtain ⟨t, hlt, htm⟩ := compute_needed_closed hn x hx s hls (.str b) hb
    obtain ⟨hd', _⟩ := lookup_step_some hlt
    injection hd' with hd''
    exact hd'' ▸ htm
  refine ⟨compute_needed_superset hn, hclosed, ?_, ?_⟩
  · intro P hPc hPcl x hx
    obtain ⟨c, hc, hr⟩ := (compute_needed_mem hn x).mp hx
    have hPc' : P c := hPc c hc
    clear hc hx
    induction hr with
    | refl => exact hPc'
    | head hl hd _ ih => exact ih (hPcl _ _ hPc' hl _ hd)
  · intro x hx
    refine ⟨fun hc => hx (compute_needed_superset hn x hc), ?_⟩
    rintro ⟨y, hy, _, hr⟩
    obtain ⟨c, hc, hcy⟩ := (compute_needed_mem hn y).mp hy
    exact hx ((compute_needed_mem hn x).mpr ⟨c, hc, hcy.trans hr⟩)

/-- Witness for C3 on the concrete graph with changed list `["b"]`. -/
theorem C3_witness :
    (∀ c ∈ ["b"], c ∈ ["a", "b"]) ∧
    (∀ x ∈ ["a", "b"], ∀ s, lookup_step exG (.str x) = some s →
       ∀ b, YamlValue.str b ∈ s.step_dependencies → b ∈ ["a", "b"]) ∧
    (∀ P : String → Prop, (∀ c ∈ ["b"], P c) →
       (∀ a s, P a → lookup_step exG (.str a) = some s →
          ∀ b, YamlValue.str b ∈ s.step_dependencies → P b) →
       ∀ x ∈ ["a", "b"], P x) ∧
    (∀ x, x ∉ ["a", "b"] →
       x ∉ ["b"] ∧ ¬∃ y, y ∈ ["a", "b"] ∧ y ≠ x ∧ Reaches exG y x) :=
  @C3_needed_least_closed_superset exG ["b"] ["a", "b"] rfl

/-- Claim C4: the trimmer's output is exactly the original ordered record
list filtered to the needed ids: a subsequence of the original records, in
the original order, each surviving record unchanged. -/
theorem C4_trim_is_ordered_filter
    {images : List (String × ResolvedImage)} {cf : String → Option ComposeDoc}
    {pc : String → Bool} {configs : List StepConfig} {g : List PipelineStep}
    {needed : List String}
    (hb : build_steps images cf configs = .ok g)
    (hn : compute_needed g (compute_changed pc g) = .ok needed) :
    trim_pipeline images cf pc configs =
      .ok (configs.filter (fun c => decide (c.id ∈ needed))) ∧
    (configs.filter (fun c => decide (c.id ∈ needed))).Sublist configs ∧
    (∀ c, c ∈ configs.filter (fun c => decide (c.id ∈ needed)) ↔
       c ∈ configs ∧ c.id ∈ needed) := by
  refine ⟨?_, List.filter_sublist configs, ?_⟩
  · simp only [trim_pipeline, hb, hn]
  · intro c
    rw [List.mem_filter]
    simp only [decide_eq_true_eq]

/-- Witness for C4 on the concrete two-step pipeline: both records survive,
in order and unchanged. -/
theorem C4_witness :
    trim_pipeline exImages0 exCf0 exPc exConfigs =
      .ok (exConfigs.filter (fun c => decide (c.id ∈ ["a", "b"]))) ∧
    (exConfigs.filter (fun c => decide (c.id ∈ ["a", "b"]))).Sublist exConfigs ∧
    (∀ c, c ∈ exConfigs.filter (fun c => decide (c.id ∈ ["a", "b"])) ↔
       c ∈ exConfigs ∧ c.id ∈ ["a", "b"]) :=
  @C4_trim_is_ordered_filter exImages0 exCf0 exPc exConfigs exG
    ["a", "b"] rfl rfl

/-- Counterexample to C5 as stated: `depends_on = [5]` is a sequence of
numbers — neither a single string nor a sequence of strings — yet the builder
accepts it (the number lands in `step_dependencies`) and the run produces a
trimmed pipeline, rather than failing with a configuration error. -/
theorem C5_counterexample :
    build_steps exImages0 exCf0 [exCfgBadList] =
      .ok [⟨"bad", [], [], [.num 5]⟩] ∧
    trim_pipeline exImages0 exCf0 exPcTrue [exCfgBadList] = .ok [] :=
  ⟨rfl, rfl⟩

/-- Claim C5 (amended): a `depends_on` value that is neither a single string
nor a sequence fails the whole build — no trimmed pipeline is produced — and
the `depends_on` parser rejects exactly such values with an error carrying
the offending value.  (A sequence is accepted whatever its element types; the
builder's error does not name the offending step.) -/
theorem C5_bad_depends_on_fails
    {images : List (String × ResolvedImage)} {cf : String → Option ComposeDoc}
    {pc : String → Bool} {configs : List StepConfig}
    {c : StepConfig} {v : YamlValue}
    (hc : c ∈ configs) (hd : c.depends_on = some v)
    (hstr : ∀ s, v ≠ YamlValue.str s) (hlist : ∀ xs, v ≠ YamlValue.list xs) :
    (∃ e, build_steps images cf configs = .error e ∧
       trim_pipeline images cf pc configs = .error (.buildError e)) ∧
    parse_depends_on v = .error (.badDependsOn v) := by
  constructor
  · obtain ⟨e, he⟩ :=
      build_steps_aux_fails hc (build_step_bad_depends_on hd hstr hlist)
    have he' : build_steps images cf configs = .error e := he
    exact ⟨e, he', by simp only [trim_pipeline, he']⟩
  · cases v with
    | str s => exact absurd rfl (hstr s)
    | list xs => exact absurd rfl (hlist xs)
    | num n => rfl

/-- Witness for the amended C5: `depends_on = 7` aborts the build. -/
theorem C5_witness :
    (∃ e, build_steps exImages0 exCf0 [exCfgBadNum] = .error e ∧
       trim_pipeline exImages0 exCf0 exPcTrue [exCfgBadNum] =
         .error (.buildError e)) ∧
    parse_depends_on (.num 7) = .error (.badDependsOn (.num 7)) :=
  C5_bad_depends_on_fails (List.mem_singleton_self exCfgBadNum) rfl
    (fun _ h => nomatch h) (fun _ h => nomatch h)

/-- Claim C6: if some step reached by the closure traversal has a
`step_dependencies` entry that is not the id of any step in the graph, the
run fails with a fatal lookup error and no trimmed pipeline is emitted. -/
theorem C6_missing_dependency_is_fatal
    {images : List (String × ResolvedImage)} {cf : String → Option ComposeDoc}
    {pc : String → Bool} {configs : List StepConfig} {g : List PipelineStep}
    {s : PipelineStep} {d : YamlValue}
    (hb : build_steps images cf configs = .ok g)
    (hs : s ∈ g) (hd : d ∈ s.step_dependencies)
    (hmiss : lookup_step g d = none)
    (hreach : ∃ c ∈ compute_changed pc g, Reaches g c s.id) :
    ∃ d', compute_needed g (compute_changed pc g) = .keyError d' ∧
      trim_pipeline images cf pc configs = .error (.keyError d') := by
  cases hn : compute_needed g (compute_changed pc g) with
  | ok needed =>
    exfalso
    have hsid : s.id ∈ needed := (compute_needed_mem hn s.id).mpr hreach
    have hls := lookup_step_of_mem (build_steps_nodup hb) hs
    obtain ⟨t, hlt, _⟩ := compute_needed_closed hn s.id hsid s hls d hd
    rw [hmiss] at hlt
    exact nomatch hlt
  | keyError d' => exact ⟨d', rfl, by simp only [trim_pipeline, hb, hn]⟩
  | outOfFuel => exact absurd hn (compute_needed_not_outOfFuel g _)

/-- Witness for C6: the single changed step `g1` depends on the absent id
`ghost`; the traversal raises the lookup error and trimming fails. -/
theorem C6_witness :
    ∃ d', compute_needed [exStepGhost]
        (compute_changed exPcX [exStepGhost]) = .keyError d' ∧
      trim_pipeline exImages0 exCf0 exPcX [exCfgGhost] =
        .error (.keyError d') :=
  @C6_missing_dependency_is_fatal exImages0 exCf0 exPcX [exCfgGhost]
    [exStepGhost] exStepGhost (.str "ghost")
    rfl (List.mem_singleton_self exStepGhost)
    (List.mem_singleton_self (YamlValue.str "ghost")) rfl
    ⟨"g1", by decide, Reaches.refl "g1"⟩

/-- Claim C7: a step carrying the mzcompose plugin inherits, as image
dependencies, every image named by a service of the referenced compose
document; consequently a step with no explicit `inputs` entries is marked
changed when a file in such an image's transitive input set changed. -/
theorem C7_compose_plugin_images
    {images : List (String × ResolvedImage)} {cf : String → Option ComposeDoc}
    {pc : String → Bool} {configs : List StepConfig} {g : List PipelineStep}
    {cfg : StepConfig} {ps : List (String × String)} {path : String}
    {doc : ComposeDoc} {svcName : String} {svc : ServiceConfig}
    {imgName : String} {img : ResolvedImage}
    (hnd : (configs.map StepConfig.id).Nodup)
    (hb : build_steps images cf configs = .ok g)
    (hc : cfg ∈ configs) (hp : cfg.plugins = some ps)
    (hmem : ("./ci/plugins/mzcompose", path) ∈ ps)
    (hcf : cf path = some doc)
    (hsvc : (svcName, svc) ∈ doc.services)
    (hmz : svc.mzbuild = some imgName)
    (hlk : lookupImage images imgName = some img) :
    ∃ s, s ∈ g ∧ s.id = cfg.id ∧ img ∈ s.image_dependencies ∧
      (cfg.inputs = none → ∀ p ∈ img.transitiveInputs, pc p = true →
        cfg.id ∈ compute_changed pc g) := by
  obtain ⟨s, hbs⟩ := build_steps_aux_each_ok hb cfg hc
  obtain ⟨manual, imgdeps, deps, plimgs, h1, h2, h3, hseq⟩ := build_step_ok hbs
  rw [hp] at h3
  have h3' : process_plugins images cf ps = .ok plimgs := h3
  obtain ⟨imgs, hfc, hsub⟩ := process_plugins_mem h3' hmem
  have himg : img ∈ imgs := find_compose_images_mem hcf hfc hsvc hmz hlk
  have himgdep : img ∈ s.image_dependencies := by
    rw [hseq]
    exact List.mem_append_right _ (hsub img himg)
  have hmemg : s ∈ g := build_steps_mem hnd hb hc hbs
  refine ⟨s, hmemg, build_step_id hbs, himgdep, ?_⟩
  intro hnone p hptrans hpc
  rw [hnone] at h1
  have h1' : (([], []) : List String × List ResolvedImage) =
      (manual, imgdeps) := Except.ok.inj h1
  injection h1' with e1 e2
  have hpin : p ∈ s.inputs := by
    rw [hseq]
    show p ∈ manual ++ image_inputs (imgdeps ++ plimgs)
    apply List.mem_append_right
    exact image_inputs_mem
      (List.mem_append_right imgdeps (hsub img himg)) hptrans
  apply (compute_changed_mem pc g cfg.id).mpr
  exact ⟨s, hmemg, build_step_id hbs, List.ne_nil_of_mem hpin,
    List.any_eq_true.mpr ⟨p, hpin, hpc⟩⟩

/-- Witness for C7: step `d` carries the mzcompose plugin whose document
names `img1`; the changed file `src/img1/main` marks `d` changed although it
declares no `inputs`. -/
theorem C7_witness :
    ∃ s, s ∈ exG7 ∧ s.id = exCfgD.id ∧
      exImg ∈ s.image_dependencies ∧
      (exCfgD.inputs = none → ∀ p ∈ exImg.transitiveInputs, exPc1 p = true →
        exCfgD.id ∈ compute_changed exPc1 exG7) :=
  @C7_compose_plugin_images exImages1 exCf1 exPc1 [exCfgD] exG7 exCfgD
    [("./ci/plugins/mzcompose", "comp.yml")] "comp.yml" exDoc "svc" exSvc
    "img1" exImg
    (by decide) rfl (List.mem_singleton_self exCfgD) rfl
    (List.mem_singleton_self ("./ci/plugins/mzcompose", "comp.yml")) rfl
    (List.mem_singleton_self ("svc", exSvc)) rfl rfl

/-- Claim C9: the selection pass is deterministic and order-independent —
as a pure function it returns equal results on equal inputs, and examining
the steps in any other order (a permutation of the graph) yields the same
changed-set and needed-set membership. -/
theorem C9_determinism_order_independence
    {pc : String → Bool} {g g' : List PipelineStep}
    (hperm : g.Perm g') (hnd : (g.map PipelineStep.id).Nodup) :
    (∀ x, x ∈ compute_changed pc g ↔ x ∈ compute_changed pc g') ∧
    (∀ n n', compute_needed g (compute_changed pc g) = .ok n →
       compute_needed g' (compute_changed pc g') = .ok n' →
       ∀ x, x ∈ n ↔ x ∈ n') := by
  have hnd' : (g'.map PipelineStep.id).Nodup :=
    (hperm.map PipelineStep.id).nodup hnd
  have hch : ∀ x, x ∈ compute_changed pc g ↔ x ∈ compute_changed pc g' := by
    intro x
    rw [compute_changed_mem, compute_changed_mem]
    constructor
    · rintro ⟨s, hsg, rest⟩
      exact ⟨s, hperm.mem_iff.mp hsg, rest⟩
    · rintro ⟨s, hsg, rest⟩
      exact ⟨s, hperm.mem_iff.mpr hsg, rest⟩
  refine ⟨hch, ?_⟩
  intro n n' hn hn' x
  rw [compute_needed_mem hn, compute_needed_mem hn']
  constructor
  · rintro ⟨c, hc, hr⟩
    exact ⟨c, (hch c).mp hc, Reaches_perm hperm hnd hr⟩
  · rintro ⟨c, hc, hr⟩
    exact ⟨c, (hch c).mpr hc, Reaches_perm hperm.symm hnd' hr⟩

/-- Witness for C9: examining the two concrete steps in the opposite order
leaves both the changed set and the needed set the same. -/
theorem C9_witness :
    (∀ x, x ∈ compute_changed exPc exG ↔
       x ∈ compute_changed exPc [exStepB, exStepA]) ∧
    (∀ n n', compute_needed exG (compute_changed exPc exG) = .ok n →
       compute_needed [exStepB, exStepA]
         (compute_changed exPc [exStepB, exStepA]) = .ok n' →
       ∀ x, x ∈ n ↔ x ∈ n') :=
  C9_determinism_order_independence
    (List.Perm.swap exStepB exStepA []) (by decide)

/-- Claim C10: a step with empty `inputs()` appears in the trimmed pipeline
iff some directly-changed step (necessarily a different one) transitively
depends on it along `step_dependencies` edges. -/
theorem C10_inputless_step_survival
    {images : List (String × ResolvedImage)} {cf : String → Option ComposeDoc}
    {pc : String → Bool} {configs : List StepConfig} {g : List PipelineStep}
    {needed : List String} {out : List StepConfig} {s : PipelineStep}
    (hb : build_steps images cf configs = .ok g)
    (hs : s ∈ g) (hin : s.inputs = [])
    (hn : compute_needed g (compute_changed pc g) = .ok needed)
    (ht : trim_pipeline images cf pc configs = .ok out) :
    (∃ c ∈ out, c.id = s.id) ↔
      ∃ ch ∈ compute_changed pc g, ch ≠ s.id ∧ Reaches g ch s.id := by
  have hout : out = configs.filter (fun c => decide (c.id ∈ needed)) := by
    simp only [trim_pipeline, hb, hn] at ht
    exact (Except.ok.inj ht).symm
  have hnc : s.id ∉ compute_changed pc g :=
    changed_not_mem_of_inputs_nil hb hs hin pc
  constructor
  · rintro ⟨c, hc, hcid⟩
    rw [hout] at hc
    obtain ⟨hcin, hcneed⟩ := List.mem_filter.mp hc
    rw [decide_eq_true_eq, hcid] at hcneed
    obtain ⟨ch, hch, hr⟩ := (compute_needed_mem hn s.id).mp hcneed
    refine ⟨ch, hch, ?_, hr⟩
    intro heq
    rw [heq] at hch
    exact hnc hch
  · rintro ⟨ch, hch, _, hr⟩
    have hsid : s.id ∈ needed :=
      (compute_needed_mem hn s.id).mpr ⟨ch, hch, hr⟩
    rcases build_steps_ids hb hs with hacc | ⟨c, hcin, hcid⟩
    · exact absurd hacc (List.not_mem_nil s)
    · refine ⟨c, ?_, hcid⟩
      rw [hout]
      refine List.mem_filter.mpr ⟨hcin, ?_⟩
      rw [decide_eq_true_eq, hcid]
      exact hsid

/-- Witness for C10: the inputless step `a` survives trimming exactly
because the changed step `b` depends on it. -/
theorem C10_witness :
    (∃ c ∈ [exCfgA, exCfgB], c.id = exStepA.id) ↔
      ∃ ch ∈ compute_changed exPc exG, ch ≠ exStepA.id ∧
        Reaches exG ch exStepA.id :=
  @C10_inputless_step_survival exImages0 exCf0 exPc exConfigs exG
    ["a", "b"] [exCfgA, exCfgB] exStepA rfl
    (List.mem_cons_self exStepA [exStepB]) rfl rfl rfl
